import Mathlib

/-!
Shallow embedding of the pson serialization library (src/pson.h) and proofs
about the claims of its specification.

Conventions of the embedding:
* machine integers are modelled as `Nat` with explicit `% 2 ^ 32` / `% 2 ^ 64`
  where the C code truncates;
* an allocator-owned byte buffer is a `List Nat` of its byte values (each in
  0..255 for well-formed data); a NULL pointer, or a buffer that was allocated
  but whose fill from the byte source failed (so its content is indeterminate),
  is modelled as `none`;
* the abstract byte source of the decoder is a `List Nat`; a `read` that runs
  past its end reports failure and consumes nothing;
* the recursion of the encoder and decoder over nested documents is expressed
  with an explicit fuel parameter (first argument), so that every definition
  stays executable by kernel reduction; the C code has no such bound and can
  loop forever on malformed length fields.
-/

set_option linter.unusedVariables false
set_option linter.unnecessarySeqFocus false
set_option maxRecDepth 40000

namespace Protoson

/-- pson::get_varint_size (pson.h lines 386-390): size = 1, then one more for
each further nonzero 7-bit shift of the value. Fueled for executability; the
fuel `n` itself always suffices. -/
def get_varint_size_fuel : Nat → Nat → Nat
  | 0, _ => 1
  | f+1, n => if n / 128 = 0 then 1 else 1 + get_varint_size_fuel f (n / 128)

/-- pson::get_varint_size on a 64-bit magnitude. -/
def get_varint_size (n : Nat) : Nat := get_varint_size_fuel n n

/-- pson::pb_encode_varint(uint8_t*, uint64_t) (pson.h 392-403) and the
identical loop pson_encoder::pb_encode_varint(uint64_t) (pson.h 741-750):
emit the low 7 bits, with 0x80 added while a nonzero remainder is left.
Fueled for executability; the fuel `n` itself always suffices. -/
def pb_encode_varint_fuel : Nat → Nat → List Nat
  | 0, n => [n % 128]
  | f+1, n => if n < 128 then [n] else (n % 128 + 128) :: pb_encode_varint_fuel f (n / 128)

/-- The byte sequence the varint writers emit for a 64-bit magnitude. -/
def pb_encode_varint (n : Nat) : List Nat := pb_encode_varint_fuel n n

theorem pb_encode_varint_fuel_irrel : ∀ f g n : Nat, n ≤ f → n ≤ g →
    pb_encode_varint_fuel f n = pb_encode_varint_fuel g n := by
  intro f
  induction f with
  | zero =>
    intro g n hf hg
    have hn : n = 0 := Nat.le_zero.mp hf
    subst hn
    cases g with
    | zero => rfl
    | succ g => simp [pb_encode_varint_fuel]
  | succ f ih =>
    intro g n hf hg
    cases g with
    | zero =>
      have hn : n = 0 := Nat.le_zero.mp hg
      subst hn
      simp [pb_encode_varint_fuel]
    | succ g =>
      simp only [pb_encode_varint_fuel]
      by_cases h : n < 128
      · simp [h]
      · simp only [h, if_false]
        have hd : n / 128 < n := Nat.div_lt_self (by omega) (by omega)
        exact congrArg _ (ih g (n / 128) (by omega) (by omega))

/-- The recurrence of the varint writer, fuel-free. -/
theorem pb_encode_varint_eq (n : Nat) :
    pb_encode_varint n =
      if n < 128 then [n] else (n % 128 + 128) :: pb_encode_varint (n / 128) := by
  unfold pb_encode_varint
  cases n with
  | zero => simp [pb_encode_varint_fuel]
  | succ m =>
    simp only [pb_encode_varint_fuel]
    by_cases h : m + 1 < 128
    · simp [h]
    · simp only [h, if_false]
      have hd : (m + 1) / 128 < m + 1 := Nat.div_lt_self (by omega) (by omega)
      exact congrArg _ (pb_encode_varint_fuel_irrel m ((m+1)/128) ((m+1)/128) (by omega) le_rfl)

theorem get_varint_size_fuel_irrel : ∀ f g n : Nat, n ≤ f → n ≤ g →
    get_varint_size_fuel f n = get_varint_size_fuel g n := by
  intro f
  induction f with
  | zero =>
    intro g n hf hg
    have hn : n = 0 := Nat.le_zero.mp hf
    subst hn
    cases g with
    | zero => rfl
    | succ g => simp [get_varint_size_fuel]
  | succ f ih =>
    intro g n hf hg
    cases g with
    | zero =>
      have hn : n = 0 := Nat.le_zero.mp hg
      subst hn
      simp [get_varint_size_fuel]
    | succ g =>
      simp only [get_varint_size_fuel]
      by_cases h : n / 128 = 0
      · simp [h]
      · simp only [h, if_false]
        have hd : n / 128 < n := Nat.div_lt_self (by omega) (by omega)
        exact congrArg _ (ih g (n / 128) (by omega) (by omega))

/-- The recurrence of get_varint_size, fuel-free. -/
theorem get_varint_size_eq (n : Nat) :
    get_varint_size n =
      if n / 128 = 0 then 1 else 1 + get_varint_size (n / 128) := by
  unfold get_varint_size
  cases n with
  | zero => simp [get_varint_size_fuel]
  | succ m =>
    simp only [get_varint_size_fuel]
    by_cases h : (m + 1) / 128 = 0
    · simp [h]
    · simp only [h, if_false]
      have hd : (m + 1) / 128 < m + 1 := Nat.div_lt_self (by omega) (by omega)
      exact congrArg _ (get_varint_size_fuel_irrel m ((m+1)/128) ((m+1)/128) (by omega) le_rfl)

/-- The varint writer emits exactly get_varint_size bytes. -/
theorem pb_encode_varint_length (n : Nat) :
    (pb_encode_varint n).length = get_varint_size n := by
  induction n using Nat.strong_induction_on with
  | _ n ih =>
    rw [pb_encode_varint_eq, get_varint_size_eq]
    by_cases h : n < 128
    · simp [h, Nat.div_eq_of_lt h]
    · have h0 : ¬ n / 128 = 0 := by omega
      have hd : n / 128 < n := Nat.div_lt_self (by omega) (by omega)
      simp [h, h0, ih (n / 128) hd, Nat.add_comm]

/-- Every byte the varint writer emits is below 256, and the final byte is
below 128 (no continuation bit), so a stored varint buffer is well formed. -/
theorem pb_encode_varint_last_lt (n : Nat) :
    ∀ b ∈ pb_encode_varint n, b < 256 := by
  induction n using Nat.strong_induction_on with
  | _ n ih =>
    rw [pb_encode_varint_eq]
    by_cases h : n < 128
    · simp [h]; omega
    · have hd : n / 128 < n := Nat.div_lt_self (by omega) (by omega)
      simp only [h, if_false, List.mem_cons]
      rintro b (rfl | hb)
      · omega
      · exact ih (n / 128) hd b hb

/-- Model of the tagged dynamic `pson` value (pson.h 176-428). The payload of
each scalar kind is the content of the allocator-owned `value_` buffer as a
byte list; `none` models a NULL pointer (never allocated) or a buffer whose
fill from the byte source failed, so its content is indeterminate. The string
payload is the buffer content without its NUL terminator. The bytes payload is
the whole owned buffer: a varint length followed by the raw bytes. An object
is its append-ordered pair list (name buffer content, value); an array its
append-ordered value list. `vother t` is a value whose type field holds the
unrecognized tag `t` (set by the decoder) with a NULL payload. -/
inductive PsonValue where
  | vnull
  | vtrue
  | vfalse
  | vzero
  | vone
  | vvarint (p : Option (List Nat))
  | vsvarint (p : Option (List Nat))
  | vfloat (p : Option (List Nat))
  | vdouble (p : Option (List Nat))
  | vstring (p : Option (List Nat))
  | vbytes (p : Option (List Nat))
  | vobject (pairs : List (Option (List Nat) × PsonValue))
  | varray (items : List PsonValue)
  | vother (t : Nat)
deriving Repr

/-- The pair list backing a pson_object. -/
abbrev ObjectPairs := List (Option (List Nat) × PsonValue)

/-- pson::operator=(T) for an integer (pson.h 256-275): 0 and 1 collapse to
the zero/one tags with no payload; otherwise the type is svarint for negative
and varint for positive values and the payload buffer holds the varint
encoding of the magnitude value>0 ? value : -value. -/
def assign_int (value : Int) : PsonValue :=
  if value = 0 then .vzero
  else if value = 1 then .vone
  else
    let uint_value : Nat := if 0 < value then value.toNat else (-value).toNat
    if value < 0 then .vsvarint (some (pb_encode_varint uint_value))
    else .vvarint (some (pb_encode_varint uint_value))

/-- pson::operator=(bool) (pson.h 277-279). -/
def assign_bool (value : Bool) : PsonValue :=
  if value then .vtrue else .vfalse

/-- pson::operator=(const char*) (pson.h 301-304): copies the characters into
an owned buffer (the model keeps the content without the terminator). -/
def assign_string (str : List Nat) : PsonValue := .vstring (some str)

/-- pson::set_bytes (pson.h 321-327): the owned buffer is the varint encoding
of the size followed by the raw bytes. -/
def set_bytes (bytes : List Nat) : PsonValue :=
  .vbytes (some (pb_encode_varint bytes.length ++ bytes))

/-- pson_object::operator[] const (pson.h 477-484): linear scan for the first
pair with a matching name; a miss returns pson::empty_value, the distinguished
default-constructed null value, and leaves the object untouched (the model is
a pure function of the object, which is exactly the point). -/
def object_index_const : ObjectPairs → List Nat → PsonValue
  | [], _ => .vnull
  | (nm, v) :: rest, name => if nm = some name then v else object_index_const rest name

/-- pson_object::operator[] mutable (pson.h 466-475), result object: linear
scan for the first pair with a matching name; a miss appends one fresh pair
with the requested name and a null value at the tail. -/
def object_index : ObjectPairs → List Nat → ObjectPairs
  | [], name => [(some name, .vnull)]
  | (nm, v) :: rest, name =>
      if nm = some name then (nm, v) :: rest
      else (nm, v) :: object_index rest name

/-- Position of the pair whose value pson_object::operator[] mutable returns
(the list length when the name is absent, where the fresh pair is appended). -/
def object_index_pos : ObjectPairs → List Nat → Nat
  | [], _ => 0
  | (nm, _) :: rest, name =>
      if nm = some name then 0 else object_index_pos rest name + 1

/-- Whether some pair of the object carries the given (defined) name. -/
def has_name (o : ObjectPairs) (name : List Nat) : Bool :=
  o.any (fun pr => decide (pr.1 = some name))

/-- pson_encoder::pb_encode_tag (pson.h 718-721): one varint holding
(field_number << 3) | wire_type; the wire type is below 8, so the or is a
plain addition. -/
def pb_encode_tag (wire_type field_number : Nat) : List Nat :=
  pb_encode_varint (field_number * 8 + wire_type)

/-- pson_encoder::pb_write_varint (pson.h 729-739): copies bytes out of a
stored varint buffer to the sink, stopping after the first byte without the
0x80 continuation bit. On an empty model buffer the source would read past
the allocation; the model emits nothing (unreachable for well-formed values). -/
def pb_write_varint : List Nat → List Nat
  | [] => []
  | b :: rest => if 128 ≤ b then b :: pb_write_varint rest else [b]

/-- Loop of pson::pb_decode_varint (pson.h 405-417) over a stored buffer:
little-endian 7-bit groups, continuing while the byte has the 0x80 bit, with
the uint64 accumulator truncation made explicit. Running off the end of the
model buffer (only possible for a malformed buffer) returns the accumulator. -/
def pb_decode_varint_go : List Nat → Nat → Nat → Nat
  | [], _, acc => acc
  | b :: rest, pos, acc =>
      let acc2 := (acc ||| ((b % 128) <<< (pos * 7))) % 2 ^ 64
      if 128 ≤ b then pb_decode_varint_go rest (pos + 1) acc2 else acc2

/-- pson::pb_decode_varint (pson.h 405-417): a NULL buffer yields 0. -/
def pson_pb_decode_varint : Option (List Nat) → Nat
  | none => 0
  | some buffer => pb_decode_varint_go buffer 0 0

/-- A raw `write(ptr, n)` of n bytes out of an owned buffer: the source writes
n bytes regardless of how large the allocation behind ptr is; bytes past the
end of the modelled buffer content are unspecified and modelled as 0. -/
def write_buffer (n : Nat) (l : List Nat) : List Nat :=
  l.take n ++ List.replicate (n - l.length) 0

theorem write_buffer_length (n : Nat) (l : List Nat) :
    (write_buffer n l).length = n := by
  simp [write_buffer]
  omega

/-- When the buffer holds at least n bytes the write emits exactly its first
n bytes. -/
theorem write_buffer_of_le (n : Nat) (l : List Nat) (h : n ≤ l.length) :
    write_buffer n l = l.take n := by
  simp [write_buffer, Nat.sub_eq_zero_of_le h]

mutual

/-- The byte count a pson_encoder sink accumulates (written_, pson.h 703-716):
the base-class write only adds the size of each write. These count functions
mirror encode_value and friends write for write; this is the first, counting
pass of the two-pass submessage encoding. -/
def count_value : Nat → PsonValue → Nat
  | 0, _ => 0
  | f+1, v =>
    match v with
    | .vtrue => (pb_encode_tag 0 5).length
    | .vfalse => (pb_encode_tag 0 6).length
    | .vone => (pb_encode_tag 0 8).length
    | .vzero => (pb_encode_tag 0 7).length
    | .vstring p =>
        (pb_encode_tag 2 9).length + (pb_encode_varint (p.getD []).length).length
          + (p.getD []).length
    | .vbytes p =>
        (pb_encode_tag 2 10).length + (pb_write_varint (p.getD [])).length
          + pson_pb_decode_varint p
    | .vsvarint p => (pb_encode_tag 0 2).length + (pb_write_varint (p.getD [])).length
    | .vvarint p => (pb_encode_tag 0 1).length + (pb_write_varint (p.getD [])).length
    | .vfloat p => (pb_encode_tag 5 3).length + 4
    | .vdouble p => (pb_encode_tag 1 4).length + 8
    | .vobject pairs =>
        (pb_encode_tag 2 11).length + (pb_encode_varint (count_object f pairs)).length
          + count_object f pairs
    | .varray items =>
        (pb_encode_tag 2 12).length + (pb_encode_varint (count_array f items)).length
          + count_array f items
    | _ => (pb_encode_tag 0 0).length

def count_pair : Nat → Option (List Nat) → PsonValue → Nat
  | 0, _, _ => 0
  | f+1, nm, v =>
      (pb_encode_varint (nm.getD []).length).length + (nm.getD []).length
        + count_value f v

def count_object : Nat → ObjectPairs → Nat
  | 0, _ => 0
  | f+1, [] => 0
  | f+1, (nm, v) :: rest => count_pair f nm v + count_object f rest

def count_array : Nat → List PsonValue → Nat
  | 0, _ => 0
  | f+1, [] => 0
  | f+1, v :: rest => count_value f v + count_array f rest

end

mutual

/-- pson_encoder::encode and its overloads for values, pairs, objects and
arrays (pson.h 793-852), materializing the written bytes. For an object or
array, pb_encode_submessage (pson.h 763-771) first encodes the composite into
a fresh base pson_encoder sink, which only counts (count_object/count_array),
writes that count as the length varint, then encodes the composite again for
real. A string is written as varint(strlen) ++ characters (pb_encode_string,
752-761). A bytes value replays its stored length varint with pb_write_varint
and then writes as many raw bytes as the stored varint decodes to. Null and
any unrecognized type fall to the default case, a lone null tag. -/
def encode_value : Nat → PsonValue → List Nat
  | 0, _ => []
  | f+1, v =>
    match v with
    | .vtrue => pb_encode_tag 0 5
    | .vfalse => pb_encode_tag 0 6
    | .vone => pb_encode_tag 0 8
    | .vzero => pb_encode_tag 0 7
    | .vstring p =>
        pb_encode_tag 2 9 ++ pb_encode_varint (p.getD []).length ++ (p.getD [])
    | .vbytes p =>
        pb_encode_tag 2 10 ++ pb_write_varint (p.getD [])
          ++ write_buffer (pson_pb_decode_varint p)
               ((p.getD []).drop (pb_write_varint (p.getD [])).length)
    | .vsvarint p => pb_encode_tag 0 2 ++ pb_write_varint (p.getD [])
    | .vvarint p => pb_encode_tag 0 1 ++ pb_write_varint (p.getD [])
    | .vfloat p => pb_encode_tag 5 3 ++ write_buffer 4 (p.getD [])
    | .vdouble p => pb_encode_tag 1 4 ++ write_buffer 8 (p.getD [])
    | .vobject pairs =>
        pb_encode_tag 2 11 ++ pb_encode_varint (count_object f pairs)
          ++ encode_object f pairs
    | .varray items =>
        pb_encode_tag 2 12 ++ pb_encode_varint (count_array f items)
          ++ encode_array f items
    | _ => pb_encode_tag 0 0

def encode_pair : Nat → Option (List Nat) → PsonValue → List Nat
  | 0, _, _ => []
  | f+1, nm, v =>
      pb_encode_varint (nm.getD []).length ++ (nm.getD []) ++ encode_value f v

def encode_object : Nat → ObjectPairs → List Nat
  | 0, _ => []
  | f+1, [] => []
  | f+1, (nm, v) :: rest => encode_pair f nm v ++ encode_object f rest

def encode_array : Nat → List PsonValue → List Nat
  | 0, _ => []
  | f+1, [] => []
  | f+1, v :: rest => encode_value f v ++ encode_array f rest

end

/-- State of a pson_decoder together with its abstract byte source: `inp` the
bytes not yet delivered, `rd` the read_ counter (pson.h 534, 547-549), `ok`
the conjunction of the results of every `read` call made so far. Each source
primitive returns its own success flag exactly as the C code does; `ok`
aggregates them since decode(pson&) itself returns void. -/
structure DecSt where
  inp : List Nat
  rd : Nat
  ok : Bool
deriving DecidableEq, Repr

/-- The virtual read(buffer, size) capability (pson.h 536-539) over a bounded
byte source: delivers the next `size` bytes when available, otherwise reports
failure and consumes nothing. -/
def dec_read (size : Nat) (st : DecSt) : Option (List Nat) × DecSt :=
  if size ≤ st.inp.length then
    (some (st.inp.take size), ⟨st.inp.drop size, st.rd + size, st.ok⟩)
  else (none, ⟨st.inp, st.rd, false⟩)

/-- Result of a streaming varint read: the decoded value, the bytes left in
the source, how many bytes were consumed, and whether every read succeeded. -/
structure VarRes where
  val : Nat
  rem : List Nat
  used : Nat
  ok : Bool
deriving DecidableEq, Repr

/-- Loop of pson_decoder::pb_decode_varint32 (pson.h 559-572): read one byte;
return if the read fails or bit_pos is already at least 32; otherwise or the
low 7 bits, shifted into a uint32, into the uint32 accumulator, and continue
only while the byte is strictly greater than 0x80 (the comparison the source
uses, so a 0x80 continuation byte stops the loop). -/
def pb_decode_varint32_loop : List Nat → Nat → Nat → VarRes
  | [], acc, _ => ⟨acc, [], 0, false⟩
  | b :: rest, acc, bit_pos =>
      if 32 ≤ bit_pos then ⟨acc, rest, 1, true⟩
      else
        let acc2 := acc ||| (((b % 128) <<< bit_pos) % 2 ^ 32)
        if 128 < b then
          let r := pb_decode_varint32_loop rest acc2 (bit_pos + 7)
          ⟨r.val, r.rem, r.used + 1, r.ok⟩
        else ⟨acc2, rest, 1, true⟩

/-- Loop of pson_decoder::pb_decode_varint64 (pson.h 574-587): same loop with
the cap at 64 bits; the source still casts each 7-bit group to uint32 before
shifting (for bit_pos at or above 32 that shift is undefined behavior in C;
the model takes the truncated wide shift, which no claim depends on). -/
def pb_decode_varint64_loop : List Nat → Nat → Nat → VarRes
  | [], acc, _ => ⟨acc, [], 0, false⟩
  | b :: rest, acc, bit_pos =>
      if 64 ≤ bit_pos then ⟨acc, rest, 1, true⟩
      else
        let acc2 := acc ||| (((b % 128) <<< bit_pos) % 2 ^ 32)
        if 128 < b then
          let r := pb_decode_varint64_loop rest acc2 (bit_pos + 7)
          ⟨r.val, r.rem, r.used + 1, r.ok⟩
        else ⟨acc2, rest, 1, true⟩

/-- pb_decode_varint32 run against the decoder state. -/
def pb_decode_varint32 (st : DecSt) : Nat × DecSt :=
  let r := pb_decode_varint32_loop st.inp 0 0
  (r.val, ⟨r.rem, st.rd + r.used, st.ok && r.ok⟩)

/-- pb_decode_varint64 run against the decoder state. -/
def pb_decode_varint64 (st : DecSt) : Nat × DecSt :=
  let r := pb_decode_varint64_loop st.inp 0 0
  (r.val, ⟨r.rem, st.rd + r.used, st.ok && r.ok⟩)

/-- pson_decoder::pb_decode_tag (pson.h 551-557): one varint32, split into the
wire type (low 3 bits) and the field number (remaining bits). -/
def pb_decode_tag (st : DecSt) : Nat × Nat × DecSt :=
  let r := pb_decode_varint32 st
  (r.1 % 8, r.1 / 8, r.2)

/-- pson_decoder::pb_skip (pson.h 589-596): reads size bytes one at a time,
anding every read result into its success flag; it keeps issuing reads after
a failure. -/
def pb_skip : Nat → DecSt → DecSt
  | 0, st => st
  | n+1, st => pb_skip n (dec_read 1 st).2

/-- pson_decoder::pb_read_string (pson.h 607-611): reads size bytes into a
buffer of size+1 and NUL-terminates it; returns the read result. On failure
the buffer content is indeterminate, modelled as none. -/
def pb_read_string (size : Nat) (st : DecSt) : Option (List Nat) × DecSt :=
  dec_read size st

/-- Loop of pson_decoder::pb_read_varint (pson.h 613-625): copies bytes while
the byte has the 0x80 bit (this loop uses the correct comparison 0x80 <= b);
if any read fails it returns false and the value keeps its NULL payload.
Returns the copied bytes, the remaining source and the bytes consumed. -/
def pb_read_varint_loop : List Nat → Option (List Nat) × List Nat × Nat
  | [] => (none, [], 0)
  | b :: rest =>
      if 128 ≤ b then
        match pb_read_varint_loop rest with
        | (none, rem, c) => (none, rem, c + 1)
        | (some bs, rem, c) => (some (b :: bs), rem, c + 1)
      else (some [b], rest, 1)

/-- pb_read_varint run against the decoder state. -/
def pb_read_varint (st : DecSt) : Option (List Nat) × DecSt :=
  let r := pb_read_varint_loop st.inp
  (r.1, ⟨r.2.1, st.rd + r.2.2, st.ok && r.1.isSome⟩)

/-- value.set_type((pson::field_type)field_number) (pson.h 653): the value
takes the type of the decoded tag with a NULL payload (an empty composite for
the object and array tags models their not-yet-allocated container). -/
def set_type : Nat → PsonValue
  | 0 => .vnull
  | 1 => .vvarint none
  | 2 => .vsvarint none
  | 3 => .vfloat none
  | 4 => .vdouble none
  | 5 => .vtrue
  | 6 => .vfalse
  | 7 => .vzero
  | 8 => .vone
  | 9 => .vstring none
  | 10 => .vbytes none
  | 11 => .vobject []
  | 12 => .varray []
  | t => .vother t

/-- The owned buffer the bytes branch of decode builds (pson.h 660-664): the
length varint re-encoded in front of the raw bytes; `none` when the raw read
failed and the tail of the buffer is indeterminate. -/
def bytes_payload (size : Nat) (raw : Option (List Nat)) : Option (List Nat) :=
  raw.map (fun r => pb_encode_varint size ++ r)

mutual

/-- pson_decoder::decode(pson&) (pson.h 649-693): read a tag, set the type of
the value to the field number, then dispatch on the wire type: for
length-delimited, read a size varint and fill a string, bytes, object or
array payload, skipping the size for any other field number; otherwise read a
raw varint payload for varint/svarint, 4 bytes for float, 8 for double, and
nothing for every other field number. Fueled: the fuel only bounds recursion
depth and loop iterations, it consumes no input. -/
def decode_value : Nat → DecSt → PsonValue × DecSt
  | 0, st => (.vnull, st)
  | f+1, st =>
    let t := pb_decode_tag st
    let wire_type := t.1
    let field_number := t.2.1
    let st1 := t.2.2
    if wire_type = 2 then
      let s := pb_decode_varint32 st1
      let size := s.1
      let st2 := s.2
      if field_number = 9 then
        let r := pb_read_string size st2
        (.vstring r.1, r.2)
      else if field_number = 10 then
        let r := dec_read size st2
        (.vbytes (bytes_payload size r.1), r.2)
      else if field_number = 11 then
        let r := decode_object f size st2.rd st2
        (.vobject r.1, r.2)
      else if field_number = 12 then
        let r := decode_array f size st2.rd st2
        (.varray r.1, r.2)
      else
        (set_type field_number, pb_skip size st2)
    else
      if field_number = 2 then
        let r := pb_read_varint st1
        (.vsvarint r.1, r.2)
      else if field_number = 1 then
        let r := pb_read_varint st1
        (.vvarint r.1, r.2)
      else if field_number = 3 then
        let r := dec_read 4 st1
        (.vfloat r.1, r.2)
      else if field_number = 4 then
        let r := dec_read 8 st1
        (.vdouble r.1, r.2)
      else (set_type field_number, st1)

/-- pson_decoder::decode(pson_object&, size) (pson.h 629-634): append one
freshly decoded pair per iteration while the bytes consumed since entry
differ from size (the size_t test size-(bytes_read()-start_read)>0 is false
exactly at equality, so overshooting keeps looping; in the C code that loop
is unbounded, here the fuel stops it). -/
def decode_object : Nat → Nat → Nat → DecSt → ObjectPairs × DecSt
  | 0, _, _, st => ([], st)
  | f+1, size, start_read, st =>
      if st.rd - start_read = size then ([], st)
      else
        let p := decode_pair f st
        let rest := decode_object f size start_read p.2.2
        ((p.1, p.2.1) :: rest.1, rest.2)

/-- pson_decoder::decode(pson_pair&) (pson.h 643-647): a varint32 name size,
the name bytes (NUL-terminated in memory), then the value. -/
def decode_pair : Nat → DecSt → Option (List Nat) × PsonValue × DecSt
  | 0, st => (none, .vnull, st)
  | f+1, st =>
      let n := pb_decode_varint32 st
      let nm := pb_read_string n.1 n.2
      let v := decode_value f nm.2
      (nm.1, v.1, v.2)

/-- pson_decoder::decode(pson_array&, size) (pson.h 636-641): same loop as
the object overload, appending one decoded value per iteration. -/
def decode_array : Nat → Nat → Nat → DecSt → List PsonValue × DecSt
  | 0, _, _, st => ([], st)
  | f+1, size, start_read, st =>
      if st.rd - start_read = size then ([], st)
      else
        let v := decode_value f st
        let rest := decode_array f size start_read v.2
        (v.1 :: rest.1, rest.2)

end

/-! Helper lemmas. -/

theorem lor_two_pow_add (k : ℕ) : ∀ a m : ℕ, a < 2 ^ k → a ||| m * 2 ^ k = a + m * 2 ^ k := by
  induction k with
  | zero =>
    intro a m h
    interval_cases a
    simp
  | succ k ih =>
    intro a m h
    have hbd := Nat.bodd_add_div2 a
    have htn : (Nat.bodd a).toNat < 2 := Bool.toNat_lt _
    have hp : (2:ℕ) ^ (k+1) = 2 * 2 ^ k := by ring
    have hd2 : Nat.div2 a < 2 ^ k := by omega
    have h1 : a = Nat.bit (Nat.bodd a) (Nat.div2 a) := (Nat.bit_decomp a).symm
    have h2 : m * 2 ^ (k+1) = Nat.bit false (m * 2 ^ k) := by
      rw [Nat.bit_val, hp]
      simp
      ring
    rw [h1, h2, Nat.lor_bit, Bool.or_false, ih _ _ hd2]
    simp only [Nat.bit_val]
    cases hb : Nat.bodd a <;> simp [hb] at hbd htn ⊢ <;> omega

/-- Every source primitive conserves rd plus the length of the pending input:
a successful read moves bytes from the source into the counter, a failed one
moves nothing. In particular the decoder never consumes more bytes than the
source holds. -/
theorem dec_read_conserve (n : Nat) (st : DecSt) :
    (dec_read n st).2.rd + (dec_read n st).2.inp.length = st.rd + st.inp.length := by
  unfold dec_read
  split
  · simp
    omega
  · simp

theorem pb_decode_varint32_loop_conserve :
    ∀ (l : List Nat) (acc bit_pos : Nat),
      (pb_decode_varint32_loop l acc bit_pos).used
        + (pb_decode_varint32_loop l acc bit_pos).rem.length = l.length := by
  intro l
  induction l with
  | nil => intro acc bp; simp [pb_decode_varint32_loop]
  | cons b rest ih =>
    intro acc bp
    by_cases h32 : 32 ≤ bp
    · simp [pb_decode_varint32_loop, h32]
      omega
    · by_cases hb : 128 < b
      · have h := ih (acc ||| (((b % 128) <<< bp) % 2 ^ 32)) (bp + 7)
        simp [pb_decode_varint32_loop, h32, hb] at h ⊢
        omega
      · simp [pb_decode_varint32_loop, h32, hb]
        omega

theorem pb_decode_varint64_loop_conserve :
    ∀ (l : List Nat) (acc bit_pos : Nat),
      (pb_decode_varint64_loop l acc bit_pos).used
        + (pb_decode_varint64_loop l acc bit_pos).rem.length = l.length := by
  intro l
  induction l with
  | nil => intro acc bp; simp [pb_decode_varint64_loop]
  | cons b rest ih =>
    intro acc bp
    by_cases h64 : 64 ≤ bp
    · simp [pb_decode_varint64_loop, h64]
      omega
    · by_cases hb : 128 < b
      · have h := ih (acc ||| (((b % 128) <<< bp) % 2 ^ 32)) (bp + 7)
        simp [pb_decode_varint64_loop, h64, hb] at h ⊢
        omega
      · simp [pb_decode_varint64_loop, h64, hb]
        omega

theorem pb_decode_varint32_conserve (st : DecSt) :
    (pb_decode_varint32 st).2.rd + (pb_decode_varint32 st).2.inp.length
      = st.rd + st.inp.length := by
  have := pb_decode_varint32_loop_conserve st.inp 0 0
  simp only [pb_decode_varint32]
  omega

theorem pb_decode_varint64_conserve (st : DecSt) :
    (pb_decode_varint64 st).2.rd + (pb_decode_varint64 st).2.inp.length
      = st.rd + st.inp.length := by
  have := pb_decode_varint64_loop_conserve st.inp 0 0
  simp only [pb_decode_varint64]
  omega

theorem pb_decode_tag_conserve (st : DecSt) :
    (pb_decode_tag st).2.2.rd + (pb_decode_tag st).2.2.inp.length
      = st.rd + st.inp.length := by
  simp only [pb_decode_tag]
  exact pb_decode_varint32_conserve st

theorem pb_skip_conserve : ∀ (n : Nat) (st : DecSt),
    (pb_skip n st).rd + (pb_skip n st).inp.length = st.rd + st.inp.length := by
  intro n
  induction n with
  | zero => intro st; rfl
  | succ n ih =>
    intro st
    have h1 := dec_read_conserve 1 st
    have h2 := ih (dec_read 1 st).2
    simp only [pb_skip]
    omega

theorem pb_read_varint_loop_conserve :
    ∀ l : List Nat,
      (pb_read_varint_loop l).2.2 + (pb_read_varint_loop l).2.1.length = l.length := by
  intro l
  induction l with
  | nil => simp [pb_read_varint_loop]
  | cons b rest ih =>
    simp only [pb_read_varint_loop]
    split
    · rcases h : pb_read_varint_loop rest with ⟨o, rem, c⟩
      rw [h] at ih
      cases o <;> simp at ih ⊢ <;> omega
    · simp
      omega

theorem pb_read_varint_conserve (st : DecSt) :
    (pb_read_varint st).2.rd + (pb_read_varint st).2.inp.length
      = st.rd + st.inp.length := by
  have := pb_read_varint_loop_conserve st.inp
  simp only [pb_read_varint]
  omega

/-- Conservation for the whole recursive decoder, all overloads at once. -/
theorem decode_conserve : ∀ f : Nat,
    (∀ st : DecSt,
      (decode_value f st).2.rd + (decode_value f st).2.inp.length
        = st.rd + st.inp.length)
    ∧ (∀ st : DecSt,
      (decode_pair f st).2.2.rd + (decode_pair f st).2.2.inp.length
        = st.rd + st.inp.length)
    ∧ (∀ (size start : Nat) (st : DecSt),
      (decode_object f size start st).2.rd + (decode_object f size start st).2.inp.length
        = st.rd + st.inp.length)
    ∧ (∀ (size start : Nat) (st : DecSt),
      (decode_array f size start st).2.rd + (decode_array f size start st).2.inp.length
        = st.rd + st.inp.length) := by
  intro f
  induction f with
  | zero => exact ⟨fun st => rfl, fun st => rfl, fun _ _ st => rfl, fun _ _ st => rfl⟩
  | succ f ih =>
    obtain ⟨ihv, ihp, iho, iha⟩ := ih
    refine ⟨?_, ?_, ?_, ?_⟩
    · intro st
      simp only [decode_value, pb_read_string]
      have h1 := pb_decode_tag_conserve st
      have h2 := pb_decode_varint32_conserve ((pb_decode_tag st).2.2)
      have h3 := dec_read_conserve ((pb_decode_varint32 ((pb_decode_tag st).2.2)).1)
        ((pb_decode_varint32 ((pb_decode_tag st).2.2)).2)
      have h4 := pb_skip_conserve ((pb_decode_varint32 ((pb_decode_tag st).2.2)).1)
        ((pb_decode_varint32 ((pb_decode_tag st).2.2)).2)
      have h5 := iho ((pb_decode_varint32 ((pb_decode_tag st).2.2)).1)
        ((pb_decode_varint32 ((pb_decode_tag st).2.2)).2).rd
        ((pb_decode_varint32 ((pb_decode_tag st).2.2)).2)
      have h6 := iha ((pb_decode_varint32 ((pb_decode_tag st).2.2)).1)
        ((pb_decode_varint32 ((pb_decode_tag st).2.2)).2).rd
        ((pb_decode_varint32 ((pb_decode_tag st).2.2)).2)
      have h7 := pb_read_varint_conserve ((pb_decode_tag st).2.2)
      have h8 := dec_read_conserve 4 ((pb_decode_tag st).2.2)
      have h9 := dec_read_conserve 8 ((pb_decode_tag st).2.2)
      split_ifs <;> simp <;> omega
    · intro st
      simp only [decode_pair, pb_read_string]
      have h1 := pb_decode_varint32_conserve st
      have h2 := dec_read_conserve ((pb_decode_varint32 st).1) ((pb_decode_varint32 st).2)
      have h3 := ihv (dec_read ((pb_decode_varint32 st).1) ((pb_decode_varint32 st).2)).2
      omega
    · intro size start st
      simp only [decode_object]
      split
      · rfl
      · have h1 := ihp st
        have h2 := iho size start (decode_pair f st).2.2
        simpa using by omega
    · intro size start st
      simp only [decode_array]
      split
      · rfl
      · have h1 := ihv st
        have h2 := iha size start (decode_value f st).2
        simpa using by omega

/-- The 32-bit streaming varint reader performs at most (48 - bit_pos) / 7
reads from bit position bit_pos below 32, and exactly one more read once the
position reached the cap. -/
theorem pb_decode_varint32_loop_used_le :
    ∀ (l : List Nat) (acc bit_pos : Nat),
      (pb_decode_varint32_loop l acc bit_pos).used
        ≤ if bit_pos < 32 then (48 - bit_pos) / 7 else 1 := by
  intro l
  induction l with
  | nil =>
    intro acc bp
    simp only [pb_decode_varint32_loop]
    split <;> omega
  | cons b rest ih =>
    intro acc bp
    by_cases h32 : 32 ≤ bp
    · have h32n : ¬ bp < 32 := by omega
      simp [pb_decode_varint32_loop, h32, h32n]
    · have h32y : bp < 32 := by omega
      by_cases hb : 128 < b
      · have h := ih (acc ||| (((b % 128) <<< bp) % 2 ^ 32)) (bp + 7)
        simp [pb_decode_varint32_loop, h32, hb, h32y] at h ⊢
        by_cases h7 : bp + 7 < 32 <;> simp [h7] at h <;> omega
      · simp [pb_decode_varint32_loop, h32, hb, h32y]
        omega

/-- Same bound for the 64-bit reader with the cap at 64. -/
theorem pb_decode_varint64_loop_used_le :
    ∀ (l : List Nat) (acc bit_pos : Nat),
      (pb_decode_varint64_loop l acc bit_pos).used
        ≤ if bit_pos < 64 then (80 - bit_pos) / 7 else 1 := by
  intro l
  induction l with
  | nil =>
    intro acc bp
    simp only [pb_decode_varint64_loop]
    split <;> omega
  | cons b rest ih =>
    intro acc bp
    by_cases h64 : 64 ≤ bp
    · have h64n : ¬ bp < 64 := by omega
      simp [pb_decode_varint64_loop, h64, h64n]
    · have h64y : bp < 64 := by omega
      by_cases hb : 128 < b
      · have h := ih (acc ||| (((b % 128) <<< bp) % 2 ^ 32)) (bp + 7)
        simp [pb_decode_varint64_loop, h64, hb, h64y] at h ⊢
        by_cases h7 : bp + 7 < 64 <;> simp [h7] at h <;> omega
      · simp [pb_decode_varint64_loop, h64, hb, h64y]
        omega

/-- pb_skip consumes exactly the requested bytes when the source holds them,
leaving the success flag untouched. -/
theorem pb_skip_exact : ∀ (n : Nat) (st : DecSt), n ≤ st.inp.length →
    pb_skip n st = ⟨st.inp.drop n, st.rd + n, st.ok⟩ := by
  intro n
  induction n with
  | zero => intro st h; simp [pb_skip]
  | succ n ih =>
    intro st h
    rcases st with ⟨inp, rd, ok⟩
    cases inp with
    | nil => simp at h
    | cons b rest =>
      simp only [pb_skip, dec_read]
      simp at h
      have h1 : (1:Nat) ≤ (b :: rest).length := by simp
      rw [if_pos h1]
      simp
      rw [ih ⟨rest, rd + 1, ok⟩ (by simpa using h)]
      simp
      omega

/-- The 32-bit streaming varint reader decodes a varint the writer produced
and stops right after it, provided no byte of the encoding is exactly 0x80
(the loop of the source stops at such a byte) and the value fits the position
budget. This is the general correctness of reading back sizes and tags whose
encoding avoids 0x80 continuation bytes. -/
theorem pb_decode_varint32_loop_enc :
    ∀ (s bit_pos acc : Nat) (rest : List Nat),
      acc < 2 ^ bit_pos → s < 2 ^ (32 - bit_pos) →
      (∀ b ∈ pb_encode_varint s, b ≠ 128) →
      pb_decode_varint32_loop (pb_encode_varint s ++ rest) acc bit_pos =
        ⟨acc + s * 2 ^ bit_pos, rest, (pb_encode_varint s).length, true⟩ := by
  intro s
  induction s using Nat.strong_induction_on with
  | _ s ih =>
    intro bp acc rest hacc hs hno
    rw [pb_encode_varint_eq] at hno ⊢
    by_cases h : s < 128
    · simp only [h, if_true] at hno ⊢
      by_cases h32 : 32 ≤ bp
      · have hs0 : s = 0 := by
          have : (32 : Nat) - bp = 0 := by omega
          rw [this] at hs
          omega
        subst hs0
        simp [pb_decode_varint32_loop, h32]
      · have hlt : s * 2 ^ bp < 2 ^ 32 := by
          have h1 : s * 2 ^ bp < 2 ^ (32 - bp) * 2 ^ bp :=
            mul_lt_mul_of_pos_right hs (Nat.two_pow_pos bp)
          have h2 : (2:Nat) ^ (32 - bp) * 2 ^ bp = 2 ^ 32 := by
            rw [← pow_add]
            congr 1
            omega
          omega
        simp only [List.cons_append, pb_decode_varint32_loop, h32, if_false]
        have hmod : ((s % 128) <<< bp) % 2 ^ 32 = s * 2 ^ bp := by
          rw [Nat.shiftLeft_eq, Nat.mod_eq_of_lt]
          · rw [Nat.mod_eq_of_lt h]
          · rw [Nat.mod_eq_of_lt h]
            exact hlt
        have hb : ¬ 128 < s := by omega
        simp only [hmod, hb, if_false]
        rw [lor_two_pow_add bp acc s hacc]
        simp
    · simp only [h, if_false] at hno ⊢
      have hmem : (s % 128 + 128) ≠ 128 := hno _ (List.mem_cons_self _ _)
      have hm0 : 0 < s % 128 := by omega
      have hbige : (128:Nat) ≤ s := by omega
      have hbp : bp + 7 ≤ 32 := by
        by_contra hc
        have h1 : (32:Nat) - bp ≤ 7 := by omega
        have h2 : (2:Nat) ^ (32 - bp) ≤ 2 ^ 7 := Nat.pow_le_pow_right (by omega) h1
        omega
      have h32 : ¬ 32 ≤ bp := by omega
      simp only [List.cons_append, pb_decode_varint32_loop, h32, if_false]
      have hmodsmall : (s % 128 + 128) % 128 = s % 128 := by omega
      have hlt7 : s % 128 * 2 ^ bp < 2 ^ 32 := by
        have h1 : s % 128 < 2 ^ 7 := by omega
        have h2 : s % 128 * 2 ^ bp < 2 ^ 7 * 2 ^ bp :=
          mul_lt_mul_of_pos_right h1 (Nat.two_pow_pos bp)
        have h3 : (2:Nat) ^ 7 * 2 ^ bp = 2 ^ (7 + bp) := by rw [← pow_add]
        have h4 : (2:Nat) ^ (7 + bp) ≤ 2 ^ 32 := Nat.pow_le_pow_right (by omega) (by omega)
        omega
      have hmod : (((s % 128 + 128) % 128) <<< bp) % 2 ^ 32 = s % 128 * 2 ^ bp := by
        rw [hmodsmall, Nat.shiftLeft_eq, Nat.mod_eq_of_lt hlt7]
      have hbgt : 128 < s % 128 + 128 := by omega
      simp only [hmod, hbgt, if_true]
      have hacc2 : acc ||| s % 128 * 2 ^ bp = acc + s % 128 * 2 ^ bp :=
        lor_two_pow_add bp acc (s % 128) hacc
      have hacc2lt : acc + s % 128 * 2 ^ bp < 2 ^ (bp + 7) := by
        have h1 : s % 128 < 2 ^ 7 := by omega
        have h2 : s % 128 * 2 ^ bp ≤ (2 ^ 7 - 1) * 2 ^ bp :=
          Nat.mul_le_mul_right _ (by omega)
        have h3 : (2:Nat) ^ (bp + 7) = 2 ^ 7 * 2 ^ bp := by
          rw [← pow_add]
          congr 1
          omega
        have h4 : (0:Nat) < 2 ^ bp := Nat.two_pow_pos bp
        omega
      have hsdiv : s / 128 < 2 ^ (32 - (bp + 7)) := by
        have h1 : s < 2 ^ (32 - bp) := hs
        have h2 : (2:Nat) ^ (32 - bp) = 2 ^ 7 * 2 ^ (32 - (bp + 7)) := by
          rw [← pow_add]
          congr 1
          omega
        have h3 : s / 128 < 2 ^ (32 - (bp + 7)) := by
          apply Nat.div_lt_of_lt_mul
          omega
        exact h3
      have hrec := ih (s / 128) (Nat.div_lt_self (by omega) (by omega))
        (bp + 7) (acc + s % 128 * 2 ^ bp) rest hacc2lt hsdiv
        (fun b hb => hno b (List.mem_cons_of_mem _ hb))
      rw [hacc2]
      simp only [List.append_eq]
      rw [hrec]
      have hval : acc + s % 128 * 2 ^ bp + s / 128 * 2 ^ (bp + 7)
          = acc + s * 2 ^ bp := by
        have h1 : (2:Nat) ^ (bp + 7) = 2 ^ bp * 128 := by
          rw [pow_add]
          norm_num
        rw [h1]
        have h2 : s % 128 * 2 ^ bp + s / 128 * (2 ^ bp * 128)
            = (s % 128 + 128 * (s / 128)) * 2 ^ bp := by ring
        have h3 : s % 128 + 128 * (s / 128) = s := Nat.mod_add_div s 128
        rw [h3] at h2
        omega
      simp [hval]

/-- The counting sink and the materializing sink agree byte for byte: the
count of the first pass equals the length of the bytes of the second. -/
theorem count_eq_length : ∀ f : Nat,
    (∀ v : PsonValue, count_value f v = (encode_value f v).length)
    ∧ (∀ (nm : Option (List Nat)) (v : PsonValue),
        count_pair f nm v = (encode_pair f nm v).length)
    ∧ (∀ prs : ObjectPairs, count_object f prs = (encode_object f prs).length)
    ∧ (∀ its : List PsonValue, count_array f its = (encode_array f its).length) := by
  intro f
  induction f with
  | zero =>
    exact ⟨fun v => rfl, fun nm v => rfl, fun prs => rfl, fun its => rfl⟩
  | succ f ih =>
    obtain ⟨ihv, ihp, iho, iha⟩ := ih
    refine ⟨?_, ?_, ?_, ?_⟩
    · intro v
      cases v <;>
        simp [count_value, encode_value, write_buffer_length, iho, iha] <;> omega
    · intro nm v
      simp [count_pair, encode_pair, ihv]
      omega
    · intro prs
      cases prs with
      | nil => rfl
      | cons pr rest =>
        rcases pr with ⟨nm, v⟩
        simp [count_object, encode_object, ihp, iho]
    · intro its
      cases its with
      | nil => rfl
      | cons v rest => simp [count_array, encode_array, ihv, iha]

/-- A miss of the const lookup (no pair carries the name) yields the empty
value. -/
theorem object_index_const_absent :
    ∀ (o : ObjectPairs) (n : List Nat),
      has_name o n = false → object_index_const o n = .vnull := by
  intro o n
  induction o with
  | nil => intro h; rfl
  | cons pr rest ih =>
    rcases pr with ⟨nm, v⟩
    intro h
    simp [has_name] at h
    simp [object_index_const, h.1]
    apply ih
    simp [has_name]
    intro a b hab
    exact h.2 a b hab

/-- The mutable lookup appends at most one pair. -/
theorem object_index_len :
    ∀ (o : ObjectPairs) (n : List Nat), (object_index o n).length ≤ o.length + 1 := by
  intro o n
  induction o with
  | nil => simp [object_index]
  | cons pr rest ih =>
    rcases pr with ⟨nm, v⟩
    by_cases h : nm = some n <;> simp [object_index, h] <;> omega

/-- A second mutable lookup of the same name changes nothing. -/
theorem object_index_idem :
    ∀ (o : ObjectPairs) (n : List Nat),
      object_index (object_index o n) n = object_index o n := by
  intro o n
  induction o with
  | nil => simp [object_index]
  | cons pr rest ih =>
    rcases pr with ⟨nm, v⟩
    by_cases h : nm = some n <;> simp [object_index, h, ih]

/-- A second mutable lookup of the same name lands on the same pair. -/
theorem object_index_pos_stable :
    ∀ (o : ObjectPairs) (n : List Nat),
      object_index_pos (object_index o n) n = object_index_pos o n := by
  intro o n
  induction o with
  | nil => simp [object_index, object_index_pos]
  | cons pr rest ih =>
    rcases pr with ⟨nm, v⟩
    by_cases h : nm = some n <;> simp [object_index, object_index_pos, h, ih]

/-- A one-byte tag (every tag of this format: the largest is 12*8+5 = 101) is
decoded into its wire type and field number, consuming exactly that byte. -/
theorem pb_decode_tag_single (t : Nat) (ht : t < 128) (l : List Nat) (rd : Nat) (ok : Bool) :
    pb_decode_tag ⟨t :: l, rd, ok⟩ = (t % 8, t / 8, ⟨l, rd + 1, ok⟩) := by
  have h32 : ¬ (32:Nat) ≤ 0 := by omega
  have hb : ¬ 128 < t := by omega
  have hm : t % 128 = t := Nat.mod_eq_of_lt ht
  have hm32 : t % 2 ^ 32 = t := Nat.mod_eq_of_lt (by omega)
  simp [pb_decode_tag, pb_decode_varint32, pb_decode_varint32_loop, h32, hb, hm, hm32]
  omega

/-- Unrecognized one-byte type tags keep a NULL payload. -/
theorem set_type_unknown (t : Nat) (h13 : 13 ≤ t) (h15 : t ≤ 15) :
    set_type t = .vother t := by
  interval_cases t <;> rfl

/-! Claim theorems. -/

/-- C1: the claim states that decoding the encoding of every constructible
value tree reproduces its tag and payload. The code violates it: a string of
128 bytes encodes to tag 74, the length varint 0x80 0x01 and the characters,
but the streaming length reader pb_decode_varint32 exits its loop at the 0x80
continuation byte (pson.h 570 tests byte>0x80 where every other varint loop of
the file tests >=0x80), reads the length back as 0 and yields an empty string
after consuming only two bytes, with every read reporting success. -/
theorem C1_roundtrip_string128_bug :
    encode_value 1 (.vstring (some (List.replicate 128 97)))
      = 74 :: 128 :: 1 :: List.replicate 128 97
    ∧ decode_value 3 ⟨encode_value 1 (.vstring (some (List.replicate 128 97))), 0, true⟩
      = (.vstring (some []), ⟨1 :: List.replicate 128 97, 2, true⟩)
    ∧ (List.replicate 128 97 : List Nat) ≠ ([] : List Nat) := by
  refine ⟨rfl, rfl, by simp⟩

/-- C2: the varint writer is minimal (its byte count equals get_varint_size),
but the streaming 64-bit varint reader does not invert it: for the magnitude
128 the writer emits 0x80 0x01, and the reader returns 0 after one byte
because its loop continues only while byte>0x80 (pson.h 585), so the 0x80
continuation byte ends the loop. -/
theorem C2_varint_roundtrip_bug :
    (∀ m : Nat, (pb_encode_varint m).length = get_varint_size m)
    ∧ pb_encode_varint 128 = [128, 1]
    ∧ pb_decode_varint64_loop (pb_encode_varint 128) 0 0 = ⟨0, [1], 1, true⟩
    ∧ (0 : Nat) ≠ 128 :=
  ⟨pb_encode_varint_length, rfl, rfl, by omega⟩

/-- C3: a stream that ends right after a tag byte whose type needs a payload
(varint 8, svarint 16, float 29, double 33, string 74, bytes 82, object 90,
array 98) leaves the decoder with exactly one byte consumed and with a read
failure recorded (the ok flag, the conjunction of every read result, is
false), and in general the decoder never consumes more bytes than the source
holds. -/
theorem C3_truncation :
    decode_value 9 ⟨[8], 0, true⟩ = (.vvarint none, ⟨[], 1, false⟩)
    ∧ decode_value 9 ⟨[16], 0, true⟩ = (.vsvarint none, ⟨[], 1, false⟩)
    ∧ decode_value 9 ⟨[29], 0, true⟩ = (.vfloat none, ⟨[], 1, false⟩)
    ∧ decode_value 9 ⟨[33], 0, true⟩ = (.vdouble none, ⟨[], 1, false⟩)
    ∧ decode_value 9 ⟨[74], 0, true⟩ = (.vstring (some []), ⟨[], 1, false⟩)
    ∧ decode_value 9 ⟨[82], 0, true⟩ = (.vbytes (some [0]), ⟨[], 1, false⟩)
    ∧ decode_value 9 ⟨[90], 0, true⟩ = (.vobject [], ⟨[], 1, false⟩)
    ∧ decode_value 9 ⟨[98], 0, true⟩ = (.varray [], ⟨[], 1, false⟩)
    ∧ ∀ (f : Nat) (l : List Nat), (decode_value f ⟨l, 0, true⟩).2.rd ≤ l.length := by
  refine ⟨rfl, rfl, rfl, rfl, rfl, rfl, rfl, rfl, fun f l => ?_⟩
  have h := (decode_conserve f).1 ⟨l, 0, true⟩
  simp at h
  omega

/-- C5: assigning an integer yields the zero tag for 0, the one tag for 1,
the svarint tag with the varint of the absolute value for negative values,
and the varint tag with the varint of the value otherwise. -/
theorem C5_integer_assignment :
    ∀ i : Int,
      assign_int i =
        if i = 0 then .vzero
        else if i = 1 then .vone
        else if i < 0 then .vsvarint (some (pb_encode_varint i.natAbs))
        else .vvarint (some (pb_encode_varint i.natAbs)) := by
  intro i
  unfold assign_int
  by_cases h0 : i = 0
  · simp [h0]
  · by_cases h1 : i = 1
    · simp [h0, h1]
    · have habs : (if 0 < i then i.toNat else (-i).toNat) = i.natAbs := by
        split_ifs with hp <;> omega
      by_cases hneg : i < 0
      · simp [h0, h1, hneg, habs]
      · simp [h0, h1, hneg, habs]

/-- C6: the const lookup of an absent name returns the empty value (and, as a
pure function of the object, cannot mutate it); the mutable lookup appends at
most one pair, is idempotent, and a second lookup of the same name returns
the same pair; and decoding a wire object holding two pairs both named "a"
(byte 97) keeps both entries in order, with no merge. -/
theorem C6_object_lookup :
    (∀ (o : ObjectPairs) (n : List Nat),
      has_name o n = false → object_index_const o n = .vnull)
    ∧ (∀ (o : ObjectPairs) (n : List Nat), (object_index o n).length ≤ o.length + 1)
    ∧ (∀ (o : ObjectPairs) (n : List Nat),
        object_index (object_index o n) n = object_index o n)
    ∧ (∀ (o : ObjectPairs) (n : List Nat),
        object_index_pos (object_index o n) n = object_index_pos o n)
    ∧ decode_value 9 ⟨[90, 6, 1, 97, 56, 1, 97, 64], 0, true⟩
        = (.vobject [(some [97], .vzero), (some [97], .vone)], ⟨[], 8, true⟩) :=
  ⟨object_index_const_absent, object_index_len, object_index_idem,
    object_index_pos_stable, rfl⟩

theorem C6_object_lookup_witness :
    object_index_const [(some [98], PsonValue.vone)] [97] = PsonValue.vnull :=
  C6_object_lookup.1 [(some [98], PsonValue.vone)] [97] rfl

/-- C7 counterexample: the claim as stated requires the decoder to skip
exactly the declared length of an unknown length-delimited field. For the
unknown tag 13 with declared length 128 (wire bytes 0x80 0x01) and 128
payload bytes present, the decoder misreads the length as 0 (its varint
reader stops at the 0x80 byte), skips nothing and has consumed only 2 bytes,
leaving all 129 remaining bytes unread. -/
theorem C7_skip_counterexample :
    decode_value 2 ⟨106 :: 128 :: 1 :: List.replicate 128 0, 0, true⟩
      = (.vother 13, ⟨1 :: List.replicate 128 0, 2, true⟩)
    ∧ (1 :: List.replicate 128 0 : List Nat).length = 129 :=
  ⟨rfl, by simp⟩

/-- C7 (amended): for an unknown type tag (13-15) under the length-delimited
wire kind, whenever the declared length decodes correctly through the
streaming varint reader (no byte of its encoding is exactly 0x80), the
decoder reads the length varint, skips exactly that many payload bytes and
continues with no read failure; under the other wire kinds (0, 1, 5) it reads
nothing beyond the tag byte; neither case is an error. -/
theorem C7_unknown_tag_skip (field s f : Nat) (payload rest : List Nat)
    (h13 : 13 ≤ field) (h15 : field ≤ 15) (hs : s < 2 ^ 32)
    (hno : ∀ b ∈ pb_encode_varint s, b ≠ 128)
    (hlen : payload.length = s) :
    decode_value (f+1) ⟨(field * 8 + 2) :: (pb_encode_varint s ++ (payload ++ rest)), 0, true⟩
      = (.vother field, ⟨rest, 1 + (pb_encode_varint s).length + s, true⟩)
    ∧ ∀ wire : Nat, wire = 0 ∨ wire = 1 ∨ wire = 5 →
        decode_value (f+1) ⟨(field * 8 + wire) :: rest, 0, true⟩
          = (.vother field, ⟨rest, 1, true⟩) := by
  constructor
  · have htag : field * 8 + 2 < 128 := by omega
    have hw : (field * 8 + 2) % 8 = 2 := by omega
    have hf : (field * 8 + 2) / 8 = field := by omega
    have h9 : ¬ field = 9 := by omega
    have h10 : ¬ field = 10 := by omega
    have h11 : ¬ field = 11 := by omega
    have h12 : ¬ field = 12 := by omega
    have hsz := pb_decode_varint32_loop_enc s 0 0 (payload ++ rest)
      (by norm_num) (by simpa using hs) hno
    have hskip : pb_skip s ⟨payload ++ rest, 1 + (pb_encode_varint s).length, true⟩
        = ⟨rest, 1 + (pb_encode_varint s).length + s, true⟩ := by
      have hle : s ≤ (payload ++ rest).length := by
        simp [hlen]
      rw [pb_skip_exact s _ (by simpa using hle)]
      simp [← hlen, List.drop_left]
    simp only [decode_value]
    rw [pb_decode_tag_single _ htag]
    simp only [hw, hf, if_pos rfl, pb_decode_varint32, hsz]
    simp only [h9, h10, h11, h12, if_false, if_true]
    simp at hskip ⊢
    rw [set_type_unknown field h13 h15]
    simp [Nat.add_comm, hskip]
  · intro wire hwire
    have hfield1 : ¬ field = 1 := by omega
    have hfield2 : ¬ field = 2 := by omega
    have hfield3 : ¬ field = 3 := by omega
    have hfield4 : ¬ field = 4 := by omega
    have hwle : wire ≤ 5 := by rcases hwire with rfl | rfl | rfl <;> omega
    have hw2 : ¬ wire = 2 := by rcases hwire with rfl | rfl | rfl <;> omega
    have htag : field * 8 + wire < 128 := by omega
    have hwm : (field * 8 + wire) % 8 = wire := by omega
    have hfd : (field * 8 + wire) / 8 = field := by omega
    simp only [decode_value]
    rw [pb_decode_tag_single _ htag]
    simp only [hwm, hfd, hw2, hfield1, hfield2, hfield3, hfield4, if_false]
    rw [set_type_unknown field h13 h15]

theorem C7_unknown_tag_skip_witness :
    decode_value 1 ⟨[106, 5, 9, 9, 9, 9, 9], 0, true⟩
      = (.vother 13, ⟨[], 7, true⟩)
    ∧ decode_value 1 ⟨[109, 42], 0, true⟩ = (.vother 13, ⟨[42], 1, true⟩) := by
  have h := C7_unknown_tag_skip 13 5 0 [9, 9, 9, 9, 9] []
    (by omega) (by omega) (by omega) (by decide) rfl
  have h2 := C7_unknown_tag_skip 13 5 0 [9, 9, 9, 9, 9] [42]
    (by omega) (by omega) (by omega) (by decide) rfl
  exact ⟨h.1, h2.2 5 (by omega)⟩

/-- C8: two-pass submessage sizing. The byte count of the counting pass over
any value equals the length of the bytes of the materializing pass, and the
encoding of an object or array is its tag, then the varint of exactly the
length of the body the second pass writes, then that body. -/
theorem C8_two_pass_sizing :
    ∀ (f : Nat) (v : PsonValue) (prs : ObjectPairs) (its : List PsonValue),
      count_value f v = (encode_value f v).length
      ∧ encode_value (f+1) (.vobject prs)
          = pb_encode_tag 2 11 ++ pb_encode_varint ((encode_object f prs).length)
              ++ encode_object f prs
      ∧ encode_value (f+1) (.varray its)
          = pb_encode_tag 2 12 ++ pb_encode_varint ((encode_array f its).length)
              ++ encode_array f its := by
  intro f v prs its
  refine ⟨(count_eq_length f).1 v, ?_, ?_⟩
  · simp [encode_value, (count_eq_length f).2.2.1 prs]
  · simp [encode_value, (count_eq_length f).2.2.2 its]

/-- C9: assigning 0, 1 or a boolean yields the zero, one, true or false tags,
and those values, like null, encode to exactly their one tag byte and nothing
else; in particular the integer 0 encodes to the single byte 56 (tag 7<<3). -/
theorem C9_zero_payload_compaction :
    assign_int 0 = .vzero ∧ assign_int 1 = .vone
    ∧ assign_bool true = .vtrue ∧ assign_bool false = .vfalse
    ∧ ∀ f : Nat,
        encode_value (f+1) (assign_int 0) = [56]
        ∧ (encode_value (f+1) (assign_int 0)).length = 1
        ∧ encode_value (f+1) (assign_int 1) = [64]
        ∧ encode_value (f+1) (assign_bool true) = [40]
        ∧ encode_value (f+1) (assign_bool false) = [48]
        ∧ encode_value (f+1) .vnull = [0] := by
  refine ⟨rfl, rfl, rfl, rfl, fun f => ?_⟩
  refine ⟨?_, ?_, ?_, ?_, ?_, ?_⟩ <;> simp only [encode_value] <;> rfl

/-- C10: one call of the 32-bit streaming varint reader consumes at most 6
bytes and one call of the 64-bit reader at most 11, on every byte source,
including unbounded runs of continuation bytes, because each loop returns
once its bit position reaches the cap. -/
theorem C10_bounded_varint_reads :
    ∀ l : List Nat,
      (pb_decode_varint32_loop l 0 0).used ≤ 6
      ∧ (pb_decode_varint64_loop l 0 0).used ≤ 11
      ∧ ∀ st : DecSt,
          (pb_decode_varint32 st).2.rd ≤ st.rd + 6
          ∧ (pb_decode_varint64 st).2.rd ≤ st.rd + 11 := by
  intro l
  refine ⟨?_, ?_, fun st => ⟨?_, ?_⟩⟩
  · have h := pb_decode_varint32_loop_used_le l 0 0
    norm_num at h
    exact h
  · have h := pb_decode_varint64_loop_used_le l 0 0
    norm_num at h
    exact h
  · have h := pb_decode_varint32_loop_used_le st.inp 0 0
    norm_num at h
    simp only [pb_decode_varint32]
    omega
  · have h := pb_decode_varint64_loop_used_le st.inp 0 0
    norm_num at h
    simp only [pb_decode_varint64]
    omega

end Protoson
